import Mathlib

/-!
# Verification of the r3th.ink MediaWiki client utilities

A shallow embedding of `src/utils/scratch.py` and proofs about it.

The script has three functions:
* `cleanhtml` — strips `<...>` tags from a string with the non-greedy
  regex `<.*?>` (Python `re.sub`, `.` does not match a newline);
* `search_title` — queries the MediaWiki search endpoint, retrying once
  through the API's spelling suggestion on zero hits;
* `get_links` — pages through the MediaWiki links endpoint collecting
  namespace-0 link titles.

The HTTP API is modelled as a pure function from the request parameters the
code sends to the JSON response shape the code reads.  The recursive
suggestion retry and the pagination `while True:` loop can diverge for
adversarial API behaviour, so both are embedded with an explicit fuel
argument; a result of `none` at the outer `Option` layer means the fuel ran
out (the Python code would still be looping/recursing).
-/

/-- `title_guess.replace(" ", "_")` — the normalisation both functions apply
to the query/page string before sending it.  The pattern is the single
character `' '`, so replacing every (non-overlapping) occurrence is exactly
the character-wise map `' ' ↦ '_'`. -/
def normalizeTitle (s : String) : String :=
  String.mk (s.data.map (fun c => if c = ' ' then '_' else c))

/-! ## TextSanitizer: `cleanhtml` (lines 7, 10–24)

Python: `cleanr = re.compile(r"<.*?>")`, `re.sub(cleanr, "", raw_html)`.

`re.sub` scans left to right.  At a position holding `'<'` the non-greedy
`.*?>` matches up to the *first* `'>'` after it, provided no newline occurs
in between (`.` does not match `'\n'`); the whole match is deleted and the
scan resumes after it.  At any other position (or at a `'<'` with no such
closing `'>'`) the character is kept and the scan moves one character on.
-/

/-- Attempt to complete a tag match begun at a `'<'`: return the remainder of
the input after the first `'>'`, failing if a newline (which `.` cannot
match) or the end of input comes first. -/
def findClose : List Char → Option (List Char)
  | [] => none
  | c :: rest =>
    if c = '>' then some rest
    else if c = '\n' then none
    else findClose rest

/-- One `re.sub` scan, with fuel.  Each step consumes at least one input
character, so `l.length` fuel always suffices (`stripTagsF_irrel`); the
fuel only makes the recursion structural. -/
def stripTagsF : Nat → List Char → List Char
  | _, [] => []
  | 0, l => l
  | fuel + 1, c :: rest =>
    if c = '<' then
      match findClose rest with
      | some rest' => stripTagsF fuel rest'
      | none => c :: stripTagsF fuel rest
    else c :: stripTagsF fuel rest

/-- The `re.sub` scan over a character list. -/
def stripTags (l : List Char) : List Char := stripTagsF l.length l

/-- `cleanhtml(raw_html)` — delete every `<.*?>` match. -/
def cleanhtml (raw_html : String) : String := String.mk (stripTags raw_html.data)

/-- Does the regex `<.*?>` match anywhere in the input?  (`re.sub` changes
the string iff this holds.) -/
def hasTagMatch : List Char → Bool
  | [] => false
  | c :: rest => (c = '<' && (findClose rest).isSome) || hasTagMatch rest

theorem findClose_length : ∀ l l', findClose l = some l' → l'.length < l.length := by
  intro l
  induction l with
  | nil => intro l' h; simp [findClose] at h
  | cons c rest ih =>
    intro l' h
    simp only [findClose] at h
    split at h
    · cases h; simp
    · split at h
      · exact absurd h (by simp)
      · exact Nat.lt_trans (ih l' h) (Nat.lt_succ_self _)

theorem stripTagsF_irrel : ∀ f1 f2 l, l.length ≤ f1 → l.length ≤ f2 →
    stripTagsF f1 l = stripTagsF f2 l := by
  intro f1
  induction f1 with
  | zero =>
    intro f2 l h1 _
    have : l = [] := List.eq_nil_of_length_eq_zero (Nat.le_zero.mp h1)
    subst this; cases f2 <;> rfl
  | succ f1 ih =>
    intro f2 l h1 h2
    cases l with
    | nil => cases f2 <;> rfl
    | cons c rest =>
      cases f2 with
      | zero => exact absurd h2 (by simp)
      | succ f2 =>
        simp only [stripTagsF]
        have hr1 : rest.length ≤ f1 := Nat.le_of_succ_le_succ h1
        have hr2 : rest.length ≤ f2 := Nat.le_of_succ_le_succ h2
        split
        · cases hfc : findClose rest with
          | some rest' =>
            have hlt := findClose_length rest rest' hfc
            exact ih f2 rest' (Nat.le_of_lt (Nat.lt_of_lt_of_le hlt hr1))
              (Nat.le_of_lt (Nat.lt_of_lt_of_le hlt hr2))
          | none => rw [ih f2 rest hr1 hr2]
        · rw [ih f2 rest hr1 hr2]

/-- The scan's defining recurrence, fuel eliminated. -/
theorem stripTags_cons (c : Char) (rest : List Char) :
    stripTags (c :: rest) =
      if c = '<' then
        match findClose rest with
        | some rest' => stripTags rest'
        | none => c :: stripTags rest
      else c :: stripTags rest := by
  show stripTagsF (rest.length + 1) (c :: rest) = _
  simp only [stripTagsF]
  split
  · cases hfc : findClose rest with
    | some rest' =>
      have hlt := findClose_length rest rest' hfc
      exact stripTagsF_irrel rest.length rest'.length rest' (Nat.le_of_lt hlt) (Nat.le_refl _)
    | none => rfl
  · rfl

theorem findClose_of_no_close (t : List Char) (b : List Char)
    (hgt : '>' ∉ t) (hnl : '\n' ∉ t) :
    findClose (t ++ '>' :: b) = some b := by
  induction t with
  | nil => simp [findClose]
  | cons x t ih =>
    have hx1 : x ≠ '>' := fun h => hgt (h ▸ List.mem_cons_self x t)
    have hx2 : x ≠ '\n' := fun h => hnl (h ▸ List.mem_cons_self x t)
    simp only [List.cons_append, findClose, if_neg hx1, if_neg hx2]
    exact ih (fun h => hgt (List.mem_cons_of_mem x h))
      (fun h => hnl (List.mem_cons_of_mem x h))

theorem stripTags_of_no_match : ∀ l, hasTagMatch l = false → stripTags l = l := by
  intro l
  induction l with
  | nil => intro _; rfl
  | cons c rest ih =>
    intro h
    simp only [hasTagMatch, Bool.or_eq_false_iff, Bool.and_eq_false_iff] at h
    rw [stripTags_cons]
    split
    · rename_i hc
      cases hfc : findClose rest with
      | some rest' =>
        rcases h.1 with h1 | h1
        · exact absurd (decide_eq_true hc) (by simp [h1])
        · rw [hfc] at h1; exact absurd h1 (by simp)
      | none => rw [ih h.2]
    · rw [ih h.2]

theorem stripTags_removes_tag : ∀ a t b : List Char, '<' ∉ a → '>' ∉ t → '\n' ∉ t →
    stripTags (a ++ '<' :: (t ++ '>' :: b)) = a ++ stripTags b := by
  intro a t b ha hgt hnl
  induction a with
  | nil =>
    simp only [List.nil_append]
    rw [stripTags_cons, if_pos rfl, findClose_of_no_close t b hgt hnl]
  | cons x a ih =>
    have hx : x ≠ '<' := fun h => ha (h ▸ List.mem_cons_self x a)
    simp only [List.cons_append]
    rw [stripTags_cons, if_neg hx, ih (fun h => ha (List.mem_cons_of_mem x h))]

/-- **C4.** `cleanhtml` deletes exactly the substrings matched by the
non-greedy pattern `<.*?>`: (i) an input with no match is returned
unchanged; (ii) at the leftmost match — a `'<'` preceded by tag-free text
and closed by the first `'>'` with no interposed newline — the match is
deleted, the preceding text is kept verbatim and in order, and the scan
continues on the remainder.  (`cleanhtml` is a total Lean function, so it
has no failure mode.) -/
theorem cleanhtml_spec :
    (∀ s : String, hasTagMatch s.data = false → cleanhtml s = s) ∧
    (∀ a t b : List Char, '<' ∉ a → '>' ∉ t → '\n' ∉ t →
      cleanhtml (String.mk (a ++ '<' :: (t ++ '>' :: b))) =
        String.mk (a ++ (cleanhtml (String.mk b)).data)) := by
  constructor
  · intro s h
    show String.mk (stripTags s.data) = s
    rw [stripTags_of_no_match s.data h]
  · intro a t b ha hgt hnl
    show String.mk (stripTags (a ++ '<' :: (t ++ '>' :: b))) = _
    rw [stripTags_removes_tag a t b ha hgt hnl]
    rfl

/-- Witness for `cleanhtml_spec` at concrete inputs: `"a < b"` has no
match and is unchanged; `"x<i>y"` strips to `"xy"`. -/
theorem cleanhtml_spec_witness :
    cleanhtml (String.mk ['a', ' ', '<', ' ', 'b']) = String.mk ['a', ' ', '<', ' ', 'b'] ∧
    cleanhtml (String.mk (['x'] ++ '<' :: (['i'] ++ '>' :: ['y']))) =
      String.mk (['x'] ++ (cleanhtml (String.mk ['y'])).data) :=
  ⟨cleanhtml_spec.1 (String.mk ['a', ' ', '<', ' ', 'b']) (by decide),
   cleanhtml_spec.2 ['x'] ['i'] ['y'] (by decide) (by decide) (by decide)⟩

/-! ## TitleSearcher: `search_title` (lines 27–76)

The code sends `srsearch = title_guess.replace(" ", "_")` and `srlimit`,
and reads `query.searchinfo.totalhits`, `query.searchinfo.suggestion`
(whose absence raises the caught `KeyError`) and `query.search[]`.  A hit is
modelled by the two fields the code touches (`title`, `snippet`); any other
fields the API returns ride along unchanged in the Python dict and carry no
information for the properties below.  The API is a pure function of the
two request parameters. -/

structure SearchHit where
  title : String
  snippet : String
deriving DecidableEq, Repr

structure SearchResponse where
  totalhits : Nat
  suggestion : Option String
  search : List SearchHit
deriving DecidableEq, Repr

/-- The search endpoint: `(srsearch, srlimit) ↦ response`. -/
def SearchApi := String → Nat → SearchResponse

/-- `search_title`'s Python return value: a list of hits, or `None`. -/
inductive SearchOutcome where
  | results : List SearchHit → SearchOutcome
  | noMatch : SearchOutcome
deriving DecidableEq, Repr

/-- `search_title(title_guess, srlimit=5)`.  The first `Nat` is fuel for the
suggestion recursion (which Python leaves unbounded); `none` means the fuel
ran out.  `some (results l)` is Python's list return, `some noMatch` is
Python's `None`. -/
def search_title (api : SearchApi) : Nat → String → Nat → Option SearchOutcome
  | 0, _, _ => none
  | fuel + 1, title_guess, srlimit =>
    if (api (normalizeTitle title_guess) srlimit).totalhits = 0 then
      match (api (normalizeTitle title_guess) srlimit).suggestion with
      | some new_guess => search_title api fuel new_guess 5
      | none => some SearchOutcome.noMatch
    else
      some (SearchOutcome.results
        ((api (normalizeTitle title_guess) srlimit).search.map
          (fun page => { page with snippet := cleanhtml page.snippet })))

/-- **C1.** On a zero-hit response carrying a suggestion, `search_title`
recurses on the suggestion with the *default* limit 5 (not the caller's
`srlimit`) and returns that recursive result unchanged. -/
theorem search_title_suggestion_retry (api : SearchApi) (fuel : Nat)
    (q s : String) (srlimit : Nat)
    (h0 : (api (normalizeTitle q) srlimit).totalhits = 0)
    (hs : (api (normalizeTitle q) srlimit).suggestion = some s) :
    search_title api (fuel + 1) q srlimit = search_title api fuel s 5 := by
  simp only [search_title, h0, hs, if_pos]

/-- The "elon muskk" scenario: zero hits for `elon_muskk` with suggestion
"elon musk"; two hits for `elon_musk`. -/
def muskApi : SearchApi := fun q _ =>
  if q = "elon_muskk" then { totalhits := 0, suggestion := some "elon musk", search := [] }
  else if q = "elon_musk" then
    { totalhits := 2, suggestion := none,
      search := [{ title := "Elon Musk", snippet := "<span>businessman</span>" },
                 { title := "Musk", snippet := "fragrance" }] }
  else { totalhits := 0, suggestion := none, search := [] }

/-- Witness for `search_title_suggestion_retry`: searching "elon muskk" with
caller limit 9 equals the direct call `search_title "elon musk"` at the
default limit 5 and yields its hit list. -/
theorem search_title_suggestion_retry_witness :
    search_title muskApi 2 "elon muskk" 9 = search_title muskApi 1 "elon musk" 5 ∧
    search_title muskApi 1 "elon musk" 5 =
      some (SearchOutcome.results
        [{ title := "Elon Musk", snippet := "businessman" },
         { title := "Musk", snippet := "fragrance" }]) :=
  ⟨search_title_suggestion_retry muskApi 1 "elon muskk" "elon musk" 9 (by decide) (by decide),
   by decide⟩

/-- Unfolding equation for one `search_title` step (also usable at numeric
fuel literals). -/
theorem search_title_succ (api : SearchApi) (fuel : Nat) (q : String) (srlimit : Nat) :
    search_title api (fuel + 1) q srlimit =
      if (api (normalizeTitle q) srlimit).totalhits = 0 then
        match (api (normalizeTitle q) srlimit).suggestion with
        | some new_guess => search_title api fuel new_guess 5
        | none => some SearchOutcome.noMatch
      else
        some (SearchOutcome.results ((api (normalizeTitle q) srlimit).search.map
          (fun page => { page with snippet := cleanhtml page.snippet }))) := rfl

/-- **C2.** Assuming the API reports a nonempty hit list whenever it reports
nonzero `totalhits`, `search_title` never returns an empty list: on zero
hits with no suggestion it returns the sentinel (Python `None`), and every
other zero-hit response is handled by the suggestion retry. -/
theorem search_title_never_empty (api : SearchApi)
    (hne : ∀ q n, (api q n).totalhits ≠ 0 → (api q n).search ≠ []) :
    (∀ fuel q srlimit, (api (normalizeTitle q) srlimit).totalhits = 0 →
        (api (normalizeTitle q) srlimit).suggestion = none →
        search_title api (fuel + 1) q srlimit = some SearchOutcome.noMatch) ∧
    (∀ fuel q srlimit, search_title api fuel q srlimit ≠ some (SearchOutcome.results [])) := by
  constructor
  · intro fuel q srlimit h0 hs
    rw [search_title_succ, if_pos h0, hs]
  · intro fuel
    induction fuel with
    | zero => intro q srlimit h; exact Option.noConfusion h
    | succ fuel ih =>
      intro q srlimit
      rw [search_title_succ]
      split
      · cases hs : (api (normalizeTitle q) srlimit).suggestion with
        | some s => exact ih s 5
        | none => simp
      · rename_i h0
        intro hcontra
        simp only [Option.some.injEq, SearchOutcome.results.injEq] at hcontra
        exact hne (normalizeTitle q) srlimit h0 (List.map_eq_nil_iff.mp hcontra)

/-- An API with one query that has zero hits and no suggestion, every other
query one hit. -/
def sentApi : SearchApi := fun q _ =>
  if q = "no_hit" then { totalhits := 0, suggestion := none, search := [] }
  else { totalhits := 1, suggestion := none, search := [{ title := "T", snippet := "s" }] }

/-- Witness for `search_title_never_empty`: `sentApi` satisfies the
nonemptiness assumption; "no hit" maps to the sentinel and "T" does not map
to an empty list. -/
theorem search_title_never_empty_witness :
    search_title sentApi 1 "no hit" 5 = some SearchOutcome.noMatch ∧
    search_title sentApi 1 "T" 5 ≠ some (SearchOutcome.results []) := by
  have hne : ∀ q n, (sentApi q n).totalhits ≠ 0 → (sentApi q n).search ≠ [] := by
    intro q n h
    by_cases hq : q = "no_hit"
    · simp [sentApi, hq] at h
    · simp [sentApi, hq]
  exact ⟨(search_title_never_empty sentApi hne).1 0 "no hit" 5 (by decide) (by decide),
         (search_title_never_empty sentApi hne).2 1 "T" 5⟩

/-- **C3.** On a nonzero-hit response, `search_title` returns exactly the
response's hit list in order, with each snippet replaced by its
`cleanhtml`; in particular, when the API honours `srlimit` (returns at most
`srlimit` hits), the result has at most `srlimit` entries. -/
theorem search_title_hits_shape (api : SearchApi) (fuel : Nat) (q : String) (srlimit : Nat)
    (h0 : (api (normalizeTitle q) srlimit).totalhits ≠ 0) :
    search_title api (fuel + 1) q srlimit =
      some (SearchOutcome.results ((api (normalizeTitle q) srlimit).search.map
        (fun page => { page with snippet := cleanhtml page.snippet }))) ∧
    ((api (normalizeTitle q) srlimit).search.length ≤ srlimit →
      ∀ l, search_title api (fuel + 1) q srlimit = some (SearchOutcome.results l) →
        l.length ≤ srlimit) := by
  have heq := search_title_succ api fuel q srlimit
  rw [if_neg h0] at heq
  refine ⟨heq, ?_⟩
  intro hle l hl
  rw [heq] at hl
  simp only [Option.some.injEq, SearchOutcome.results.injEq] at hl
  rw [← hl]
  simpa using hle

/-- Witness for `search_title_hits_shape` on `muskApi`'s "elon musk" query:
the result is the cleaned hit list and its length is within the limit. -/
theorem search_title_hits_shape_witness :
    search_title muskApi 1 "elon musk" 5 =
      some (SearchOutcome.results ((muskApi (normalizeTitle "elon musk") 5).search.map
        (fun page => { page with snippet := cleanhtml page.snippet }))) ∧
    ((muskApi (normalizeTitle "elon musk") 5).search.map
        (fun page => { page with snippet := cleanhtml page.snippet })).length ≤ 5 :=
  ⟨(search_title_hits_shape muskApi 0 "elon musk" 5 (by decide)).1,
   (search_title_hits_shape muskApi 0 "elon musk" 5 (by decide)).2 (by decide) _
     (search_title_hits_shape muskApi 0 "elon musk" 5 (by decide)).1⟩

/-- An adversarial API that answers every query with zero hits and a
suggestion, making the Python recursion spin forever. -/
def loopApi : SearchApi := fun _ _ =>
  { totalhits := 0, suggestion := some "x", search := [] }

/-- **C9.** If the API never answers a suggested query with another
zero-hit-plus-suggestion response, `search_title` terminates after at most
one suggestion retry: fuel 2 (two round trips) already yields the final
answer, and more fuel changes nothing.  The code itself enforces no depth
limit: against `loopApi` the recursion exhausts any amount of fuel. -/
theorem search_title_depth_bound (api : SearchApi)
    (H : ∀ q srlimit s, (api q srlimit).totalhits = 0 →
        (api q srlimit).suggestion = some s →
        (api (normalizeTitle s) 5).totalhits = 0 →
        (api (normalizeTitle s) 5).suggestion = none) :
    (∀ fuel q srlimit, search_title api (fuel + 2) q srlimit = search_title api 2 q srlimit) ∧
    (∀ q srlimit, (search_title api 2 q srlimit).isSome) ∧
    (∀ fuel q srlimit, search_title loopApi fuel q srlimit = none) := by
  refine ⟨?_, ?_, ?_⟩
  · intro fuel q srlimit
    show search_title api (fuel + 1 + 1) q srlimit = search_title api (1 + 1) q srlimit
    rw [search_title_succ, search_title_succ]
    split
    · rename_i h0
      cases hs : (api (normalizeTitle q) srlimit).suggestion with
      | none => rfl
      | some s =>
        show search_title api (fuel + 1) s 5 = search_title api (0 + 1) s 5
        rw [search_title_succ, search_title_succ]
        split
        · rename_i h0'
          cases hs' : (api (normalizeTitle s) 5).suggestion with
          | none => rfl
          | some s' =>
            have hnone := H (normalizeTitle q) srlimit s h0 hs h0'
            rw [hs'] at hnone
            exact Option.noConfusion hnone
        · rfl
    · rfl
  · intro q srlimit
    show (search_title api (1 + 1) q srlimit).isSome
    rw [search_title_succ]
    split
    · rename_i h0
      cases hs : (api (normalizeTitle q) srlimit).suggestion with
      | none => rfl
      | some s =>
        show (search_title api (0 + 1) s 5).isSome
        rw [search_title_succ]
        split
        · rename_i h0'
          cases hs' : (api (normalizeTitle s) 5).suggestion with
          | none => rfl
          | some s' =>
            have hnone := H (normalizeTitle q) srlimit s h0 hs h0'
            rw [hs'] at hnone
            exact Option.noConfusion hnone
        · rfl
    · rfl
  · intro fuel
    induction fuel with
    | zero => intro q srlimit; rfl
    | succ fuel ih =>
      intro q srlimit
      rw [search_title_succ]
      exact ih "x" 5

/-- Witness for `search_title_depth_bound`: `muskApi` never follows a
suggestion with another zero-hit-plus-suggestion answer, so the bound
applies to the "elon muskk" query. -/
theorem search_title_depth_bound_witness :
    search_title muskApi (3 + 2) "elon muskk" 7 = search_title muskApi 2 "elon muskk" 7 ∧
    (search_title muskApi 2 "elon muskk" 7).isSome := by
  have H : ∀ q srlimit s, (muskApi q srlimit).totalhits = 0 →
      (muskApi q srlimit).suggestion = some s →
      (muskApi (normalizeTitle s) 5).totalhits = 0 →
      (muskApi (normalizeTitle s) 5).suggestion = none := by
    intro q srlimit s h0 hs
    by_cases h1 : q = "elon_muskk"
    · simp only [muskApi, h1, if_pos, Option.some.injEq, reduceIte] at hs
      subst hs
      intro h0'
      exact absurd h0' (by decide)
    · by_cases h2 : q = "elon_musk"
      · simp [muskApi, h1, h2] at h0
      · simp [muskApi, h1, h2] at hs
  exact ⟨(search_title_depth_bound muskApi H).1 3 "elon muskk" 7,
         (search_title_depth_bound muskApi H).2.1 "elon muskk" 7⟩

/-! ## LinkEnumerator: `get_links` (lines 79–133)

Each request sends `titles = page_name.replace(" ", "_")`, `prop=links`,
`pllimit`, and (from the second iteration on) `plcontinue`.  The code reads
one entry of `query.pages` (`popitem`; the API returns a single page since a
single title is queried), that page's optional `links[]` (absence raises
the caught `KeyError`), each link's `ns` and `title`, and the optional
top-level `continue.plcontinue`.  The API is modelled as a pure function of
the three request parameters that vary. -/

structure WLink where
  ns : Int
  title : String
deriving DecidableEq, Repr

/-- The single `query.pages` entry the code pops: `links` is `none` when the
page has no `links` field (Python's `KeyError` case). -/
structure LinksPage where
  links : Option (List WLink)
deriving DecidableEq, Repr

structure LinksResponse where
  page : LinksPage
  plcontinue : Option String
deriving DecidableEq, Repr

/-- The request parameters `get_links` varies: `titles`, `pllimit`,
`plcontinue` (absent on the first request). -/
structure LinksParams where
  titles : String
  pllimit : Nat
  plcontinue : Option String
deriving DecidableEq, Repr

/-- The links endpoint. -/
def LinksApi := LinksParams → LinksResponse

/-- Lines 98–100: `pllimit = num_links`, capped to the API maximum of 500
when `num_links` is `None` or exceeds 500. -/
def pllimitOf : Option Nat → Nat
  | none => 500
  | some n => if n > 500 then 500 else n

/-- Lines 123–127, the `for link in links:` loop.  `Sum.inl` is the early
`return pl` taken when the accumulator's length reaches `num_links`
(`len(pl) == num_links`, always false for `num_links = None`); `Sum.inr` is
falling off the end of the list. -/
def scanLinks (num_links : Option Nat) : List WLink → List String → Sum (List String) (List String)
  | [], pl => Sum.inr pl
  | link :: rest, pl =>
    if link.ns = 0 then
      if some (pl ++ [link.title]).length = num_links then Sum.inl (pl ++ [link.title])
      else scanLinks num_links rest (pl ++ [link.title])
    else scanLinks num_links rest pl

/-- Lines 103–133, the `while True:` loop, with fuel (one unit per HTTP
request; the Python loop has no bound of its own and `none` means the fuel
ran out). -/
def linksLoop (api : LinksApi) (titles : String) (num_links : Option Nat) (pllimit : Nat) :
    Nat → List String → Option String → Option (List String)
  | 0, _, _ => none
  | fuel + 1, pl, plcontinue =>
    match (api ⟨titles, pllimit, plcontinue⟩).page.links with
    | none => some pl
    | some links =>
      match scanLinks num_links links pl with
      | Sum.inl result => some result
      | Sum.inr pl' =>
        match (api ⟨titles, pllimit, plcontinue⟩).plcontinue with
        | some c => linksLoop api titles num_links pllimit fuel pl' (some c)
        | none => some pl'

/-- `get_links(page_name, num_links=None)`. -/
def get_links (api : LinksApi) (fuel : Nat) (page_name : String)
    (num_links : Option Nat := none) : Option (List String) :=
  linksLoop api (normalizeTitle page_name) num_links (pllimitOf num_links) fuel [] none

/-- The titles of the namespace-0 links of a response, in response order —
what one pass of the `for` loop appends when it does not return early. -/
def ns0Titles (links : List WLink) : List String :=
  (links.filter (fun link => link.ns = 0)).map (fun link => link.title)

/-- How many namespace-0 links the API supplies along the continuation
chain, within `fuel` requests: the measure for "the responses supply at
least `n` links in total". -/
def suppliedNS0 (api : LinksApi) (titles : String) (pllimit : Nat) :
    Nat → Option String → Nat
  | 0, _ => 0
  | fuel + 1, cur =>
    match (api ⟨titles, pllimit, cur⟩).page.links with
    | none => 0
    | some links =>
      (ns0Titles links).length +
        match (api ⟨titles, pllimit, cur⟩).plcontinue with
        | some c => suppliedNS0 api titles pllimit fuel (some c)
        | none => 0

/-- Unfolding equation for one `linksLoop` step. -/
theorem linksLoop_succ (api : LinksApi) (titles : String) (num_links : Option Nat)
    (pllimit : Nat) (fuel : Nat) (pl : List String) (plcontinue : Option String) :
    linksLoop api titles num_links pllimit (fuel + 1) pl plcontinue =
      match (api ⟨titles, pllimit, plcontinue⟩).page.links with
      | none => some pl
      | some links =>
        match scanLinks num_links links pl with
        | Sum.inl result => some result
        | Sum.inr pl' =>
          match (api ⟨titles, pllimit, plcontinue⟩).plcontinue with
          | some c => linksLoop api titles num_links pllimit fuel pl' (some c)
          | none => some pl' := rfl

theorem ns0Titles_cons_zero (link : WLink) (rest : List WLink) (h : link.ns = 0) :
    ns0Titles (link :: rest) = link.title :: ns0Titles rest := by
  simp [ns0Titles, List.filter_cons, h]

theorem ns0Titles_cons_ne (link : WLink) (rest : List WLink) (h : ¬link.ns = 0) :
    ns0Titles (link :: rest) = ns0Titles rest := by
  simp [ns0Titles, List.filter_cons, h]

theorem ns0Titles_mem (links : List WLink) (x : String) (hx : x ∈ ns0Titles links) :
    ∃ link ∈ links, link.ns = 0 ∧ link.title = x := by
  simp only [ns0Titles, List.mem_map, List.mem_filter] at hx
  obtain ⟨link, ⟨hmem, hns⟩, ht⟩ := hx
  exact ⟨link, hmem, by simpa using hns, ht⟩

/-- With `num_links` equal to `None` or `0`, the early-return test
`len(pl) == num_links` can never fire (the accumulator's length after an
append is a positive number), so the scan appends every namespace-0 title. -/
theorem scanLinks_no_early (num_links : Option Nat)
    (hnl : num_links = none ∨ num_links = some 0) :
    ∀ links pl, scanLinks num_links links pl = Sum.inr (pl ++ ns0Titles links) := by
  intro links
  induction links with
  | nil => intro pl; simp [scanLinks, ns0Titles]
  | cons link rest ih =>
    intro pl
    simp only [scanLinks]
    split
    · rename_i hns
      rw [if_neg, ih (pl ++ [link.title]), ns0Titles_cons_zero link rest hns,
        List.append_assoc]
      · rfl
      · rcases hnl with h | h <;> subst h <;> simp
    · rename_i hns
      rw [ih pl, ns0Titles_cons_ne link rest hns]

theorem scanLinks_inr_charac (n : Nat) :
    ∀ links pl pl', pl.length < n → scanLinks (some n) links pl = Sum.inr pl' →
      pl' = pl ++ ns0Titles links ∧ pl'.length < n := by
  intro links
  induction links with
  | nil =>
    intro pl pl' hlt h
    simp only [scanLinks, Sum.inr.injEq] at h
    subst h
    simp [ns0Titles, hlt]
  | cons link rest ih =>
    intro pl pl' hlt h
    simp only [scanLinks] at h
    split at h
    · rename_i hns
      split at h
      · exact Sum.noConfusion h
      · rename_i hne
        have hlt' : (pl ++ [link.title]).length < n := by
          simp only [Option.some.injEq] at hne
          have : (pl ++ [link.title]).length = pl.length + 1 := by simp
          omega
        obtain ⟨he, hl⟩ := ih (pl ++ [link.title]) pl' hlt' h
        exact ⟨by rw [he, ns0Titles_cons_zero link rest hns, List.append_assoc]; rfl, hl⟩
    · rename_i hns
      obtain ⟨he, hl⟩ := ih pl pl' hlt h
      exact ⟨by rw [he, ns0Titles_cons_ne link rest hns], hl⟩

theorem scanLinks_inl_len (n : Nat) :
    ∀ links pl pl', pl.length < n → scanLinks (some n) links pl = Sum.inl pl' →
      pl'.length = n := by
  intro links
  induction links with
  | nil => intro pl pl' _ h; exact Sum.noConfusion h
  | cons link rest ih =>
    intro pl pl' hlt h
    simp only [scanLinks] at h
    split at h
    · split at h
      · rename_i heq
        simp only [Option.some.injEq] at heq
        cases h
        exact heq
      · rename_i hne
        have hlt' : (pl ++ [link.title]).length < n := by
          simp only [Option.some.injEq] at hne
          have : (pl ++ [link.title]).length = pl.length + 1 := by simp
          omega
        exact ih (pl ++ [link.title]) pl' hlt' h
    · exact ih pl pl' hlt h

theorem scanLinks_reaches (n : Nat) :
    ∀ links pl, pl.length < n → n ≤ pl.length + (ns0Titles links).length →
      ∃ l, scanLinks (some n) links pl = Sum.inl l ∧ l.length = n := by
  intro links
  induction links with
  | nil =>
    intro pl hlt hge
    simp only [ns0Titles, List.filter_nil, List.map_nil, List.length_nil] at hge
    omega
  | cons link rest ih =>
    intro pl hlt hge
    simp only [scanLinks]
    split
    · rename_i hns
      by_cases heq : (pl ++ [link.title]).length = n
      · refine ⟨pl ++ [link.title], ?_, heq⟩
        rw [if_pos (by rw [heq])]
      · rw [if_neg (by simpa using heq)]
        apply ih
        · have : (pl ++ [link.title]).length = pl.length + 1 := by simp
          omega
        · rw [ns0Titles_cons_zero link rest hns] at hge
          simp only [List.length_cons] at hge
          simp only [List.length_append, List.length_cons, List.length_nil]
          omega
    · rename_i hns
      rw [ns0Titles_cons_ne link rest hns] at hge
      exact ih pl hlt hge

theorem scanLinks_mem (num_links : Option Nat) :
    ∀ links pl pl', (scanLinks num_links links pl = Sum.inl pl' ∨
        scanLinks num_links links pl = Sum.inr pl') →
      ∀ x ∈ pl', x ∈ pl ∨ x ∈ ns0Titles links := by
  intro links
  induction links with
  | nil =>
    intro pl pl' h x hx
    rcases h with h | h
    · exact Sum.noConfusion h
    · simp only [scanLinks, Sum.inr.injEq] at h
      subst h
      exact Or.inl hx
  | cons link rest ih =>
    intro pl pl' h x hx
    rcases h with h | h <;> simp only [scanLinks] at h
    · split at h
      · rename_i hns
        split at h
        · cases h
          rcases List.mem_append.mp hx with hx | hx
          · exact Or.inl hx
          · rw [ns0Titles_cons_zero link rest hns]
            exact Or.inr (by simpa using Or.inl (by simpa using hx))
        · rcases ih (pl ++ [link.title]) pl' (Or.inl h) x hx with hx' | hx'
          · rcases List.mem_append.mp hx' with hx'' | hx''
            · exact Or.inl hx''
            · rw [ns0Titles_cons_zero link rest hns]
              exact Or.inr (by simpa using Or.inl (by simpa using hx''))
          · rw [ns0Titles_cons_zero link rest hns]
            exact Or.inr (List.mem_cons_of_mem _ hx')
      · rename_i hns
        rcases ih pl pl' (Or.inl h) x hx with hx' | hx'
        · exact Or.inl hx'
        · rw [ns0Titles_cons_ne link rest hns]; exact Or.inr hx'
    · split at h
      · rename_i hns
        split at h
        · exact Sum.noConfusion h
        · rcases ih (pl ++ [link.title]) pl' (Or.inr h) x hx with hx' | hx'
          · rcases List.mem_append.mp hx' with hx'' | hx''
            · exact Or.inl hx''
            · rw [ns0Titles_cons_zero link rest hns]
              exact Or.inr (by simpa using Or.inl (by simpa using hx''))
          · rw [ns0Titles_cons_zero link rest hns]
            exact Or.inr (List.mem_cons_of_mem _ hx')
      · rename_i hns
        rcases ih pl pl' (Or.inr h) x hx with hx' | hx'
        · exact Or.inl hx'
        · rw [ns0Titles_cons_ne link rest hns]; exact Or.inr hx'

/-- Unfolding equation for one `suppliedNS0` step. -/
theorem suppliedNS0_succ (api : LinksApi) (titles : String) (pllimit : Nat)
    (fuel : Nat) (cur : Option String) :
    suppliedNS0 api titles pllimit (fuel + 1) cur =
      match (api ⟨titles, pllimit, cur⟩).page.links with
      | none => 0
      | some links =>
        (ns0Titles links).length +
          match (api ⟨titles, pllimit, cur⟩).plcontinue with
          | some c => suppliedNS0 api titles pllimit fuel (some c)
          | none => 0 := rfl

theorem scanLinks_under (n : Nat) :
    ∀ links pl, pl.length + (ns0Titles links).length < n →
      scanLinks (some n) links pl = Sum.inr (pl ++ ns0Titles links) := by
  intro links
  induction links with
  | nil => intro pl _; simp [scanLinks, ns0Titles]
  | cons link rest ih =>
    intro pl hlt
    simp only [scanLinks]
    split
    · rename_i hns
      rw [ns0Titles_cons_zero link rest hns] at hlt ⊢
      simp only [List.length_cons] at hlt
      rw [if_neg, ih (pl ++ [link.title]) (by simp; omega), List.append_assoc]
      · rfl
      · simp only [Option.some.injEq, List.length_append, List.length_cons, List.length_nil]
        omega
    · rename_i hns
      rw [ns0Titles_cons_ne link rest hns] at hlt ⊢
      exact ih pl hlt

theorem linksLoop_le (api : LinksApi) (T : String) (n P : Nat) :
    ∀ fuel pl cur l, pl.length < n →
      linksLoop api T (some n) P fuel pl cur = some l → l.length ≤ n := by
  intro fuel
  induction fuel with
  | zero => intro pl cur l _ h; exact Option.noConfusion h
  | succ fuel ih =>
    intro pl cur l hlt h
    rw [linksLoop_succ] at h
    split at h
    · cases h; exact Nat.le_of_lt hlt
    · rename_i links hlk
      split at h
      · rename_i res hscan
        cases h
        exact Nat.le_of_eq (scanLinks_inl_len n links pl _ hlt hscan)
      · rename_i pl' hscan
        obtain ⟨_, hl⟩ := scanLinks_inr_charac n links pl pl' hlt hscan
        split at h
        · rename_i c hc
          exact ih pl' (some c) l hl h
        · cases h; exact Nat.le_of_lt hl

theorem natSubHelper1 (n plen k s alen : Nat) (h1 : n - plen ≤ k + s)
    (h2 : alen = plen + k) : n - alen ≤ s := by omega

theorem natSubHelper2 (n plen k : Nat) (h1 : n - plen ≤ k + 0)
    (h2 : plen + k < n) : False := by omega

theorem linksLoop_exact (api : LinksApi) (T : String) (n P : Nat) :
    ∀ fuel pl cur, pl.length < n → n - pl.length ≤ suppliedNS0 api T P fuel cur →
      ∃ l, linksLoop api T (some n) P fuel pl cur = some l ∧ l.length = n := by
  intro fuel
  induction fuel with
  | zero =>
    intro pl cur hlt hsup
    simp only [suppliedNS0] at hsup
    omega
  | succ fuel ih =>
    intro pl cur hlt hsup
    rw [linksLoop_succ]
    split
    · rename_i hlk
      simp only [suppliedNS0_succ, hlk] at hsup
      omega
    · rename_i links hlk
      simp only [suppliedNS0_succ, hlk] at hsup
      by_cases hr : n ≤ pl.length + (ns0Titles links).length
      · obtain ⟨l, hscan, hlen⟩ := scanLinks_reaches n links pl hlt hr
        rw [hscan]
        exact ⟨l, rfl, hlen⟩
      · have hu : pl.length + (ns0Titles links).length < n := by omega
        rw [scanLinks_under n links pl hu]
        have hlen' : (pl ++ ns0Titles links).length = pl.length + (ns0Titles links).length := by
          simp
        cases hc : (api ⟨T, P, cur⟩).plcontinue with
        | some c =>
          simp only [hc] at hsup
          refine ih (pl ++ ns0Titles links) (some c) ?_ ?_
          · rw [hlen']; exact hu
          · exact natSubHelper1 n pl.length (ns0Titles links).length
              (suppliedNS0 api T P fuel (some c)) (pl ++ ns0Titles links).length hsup hlen'
        | none =>
          simp only [hc] at hsup
          exact (natSubHelper2 n pl.length (ns0Titles links).length hsup hu).elim

theorem linksLoop_ext (api api' : LinksApi) (T : String) (nl : Option Nat) (P : Nat)
    (hagree : ∀ p : LinksParams, p.pllimit = P → api p = api' p) :
    ∀ fuel pl cur, linksLoop api T nl P fuel pl cur = linksLoop api' T nl P fuel pl cur := by
  intro fuel
  induction fuel with
  | zero => intro pl cur; rfl
  | succ fuel ih =>
    intro pl cur
    rw [linksLoop_succ, linksLoop_succ, ← hagree ⟨T, P, cur⟩ rfl]
    split
    · rfl
    · split
      · rfl
      · split
        · apply ih
        · rfl

theorem scanLinks_filter (nl : Option Nat) :
    ∀ links pl, scanLinks nl (links.filter (fun link => link.ns = 0)) pl =
      scanLinks nl links pl := by
  intro links
  induction links with
  | nil => intro pl; rfl
  | cons link rest ih =>
    intro pl
    by_cases hns : link.ns = 0
    · simp only [List.filter_cons, hns, decide_True, scanLinks, if_pos hns, if_true]
      split
      · rfl
      · exact ih (pl ++ [link.title])
    · simp only [List.filter_cons, hns, decide_False, scanLinks, if_neg hns, if_false]
      exact ih pl

/-- Delete every link whose namespace is not 0 from a response. -/
def eraseNonNS0 (r : LinksResponse) : LinksResponse :=
  { page := { links := r.page.links.map (fun links => links.filter (fun link => link.ns = 0)) },
    plcontinue := r.plcontinue }

theorem linksLoop_erase (api : LinksApi) (T : String) (nl : Option Nat) (P : Nat) :
    ∀ fuel pl cur, linksLoop (fun p => eraseNonNS0 (api p)) T nl P fuel pl cur =
      linksLoop api T nl P fuel pl cur := by
  intro fuel
  induction fuel with
  | zero => intro pl cur; rfl
  | succ fuel ih =>
    intro pl cur
    rw [linksLoop_succ, linksLoop_succ]
    cases hlk : (api ⟨T, P, cur⟩).page.links with
    | none => simp [eraseNonNS0, hlk]
    | some links =>
      simp only [eraseNonNS0, hlk, Option.map_some']
      rw [scanLinks_filter]
      split
      · rfl
      · split
        · apply ih
        · rfl

theorem linksLoop_mem (api : LinksApi) (T : String) (nl : Option Nat) (P : Nat) :
    ∀ fuel pl cur l, linksLoop api T nl P fuel pl cur = some l →
      ∀ x ∈ l, x ∈ pl ∨ ∃ p lks lk, (api p).page.links = some lks ∧
        lk ∈ lks ∧ lk.ns = 0 ∧ lk.title = x := by
  intro fuel
  induction fuel with
  | zero => intro pl cur l h; exact Option.noConfusion h
  | succ fuel ih =>
    intro pl cur l h x hx
    rw [linksLoop_succ] at h
    split at h
    · cases h; exact Or.inl hx
    · rename_i links hlk
      have fromScan : ∀ y, y ∈ ns0Titles links →
          ∃ p lks lk, (api p).page.links = some lks ∧ lk ∈ lks ∧ lk.ns = 0 ∧ lk.title = y := by
        intro y hy
        obtain ⟨lk, hmem, hns, ht⟩ := ns0Titles_mem links y hy
        exact ⟨⟨T, P, cur⟩, links, lk, hlk, hmem, hns, ht⟩
      split at h
      · rename_i res hscan
        cases h
        rcases scanLinks_mem nl links pl _ (Or.inl hscan) x hx with hx' | hx'
        · exact Or.inl hx'
        · exact Or.inr (fromScan x hx')
      · rename_i pl' hscan
        have fromAcc : x ∈ pl' → x ∈ pl ∨ ∃ p lks lk, (api p).page.links = some lks ∧
            lk ∈ lks ∧ lk.ns = 0 ∧ lk.title = x := by
          intro hx'
          rcases scanLinks_mem nl links pl pl' (Or.inr hscan) x hx' with hx'' | hx''
          · exact Or.inl hx''
          · exact Or.inr (fromScan x hx'')
        split at h
        · rename_i c hc
          rcases ih pl' (some c) l h x hx with hx' | hx'
          · exact fromAcc hx'
          · exact Or.inr hx'
        · cases h; exact fromAcc hx

/-- **C6.** The page size sent with every request is `num_links` capped at
the API maximum: 500 when `num_links` is `None` or exceeds 500, exactly
`num_links` otherwise, hence never above 500; and `get_links` consults the
API only at parameters carrying that page size (two APIs that agree on all
requests with `pllimit = pllimitOf num_links` are indistinguishable). -/
theorem get_links_pllimit :
    pllimitOf none = 500 ∧
    (∀ n : Nat, 500 < n → pllimitOf (some n) = 500) ∧
    (∀ n : Nat, n ≤ 500 → pllimitOf (some n) = n) ∧
    (∀ num_links, pllimitOf num_links ≤ 500) ∧
    (∀ (api api' : LinksApi) (fuel : Nat) (page_name : String) (num_links : Option Nat),
      (∀ p : LinksParams, p.pllimit = pllimitOf num_links → api p = api' p) →
      get_links api fuel page_name num_links = get_links api' fuel page_name num_links) := by
  refine ⟨rfl, ?_, ?_, ?_, ?_⟩
  · intro n h
    simp [pllimitOf, h]
  · intro n h
    simp only [pllimitOf]
    rw [if_neg (by omega)]
  · intro num_links
    cases num_links with
    | none => exact Nat.le_refl 500
    | some n =>
      simp only [pllimitOf]
      split
      · exact Nat.le_refl 500
      · omega
  · intro api api' fuel pn nl hagree
    exact linksLoop_ext api api' (normalizeTitle pn) nl (pllimitOf nl) hagree fuel [] none

/-- Two APIs that agree exactly on requests with the capped page size 500
but differ elsewhere. -/
def capApi : LinksApi := fun _ => { page := { links := none }, plcontinue := none }

def capApi' : LinksApi := fun p =>
  if p.pllimit = 500 then { page := { links := none }, plcontinue := none }
  else { page := { links := some [{ ns := 0, title := "X" }] }, plcontinue := none }

/-- Witness for `get_links_pllimit`: with `num_links = None` the call only
sees the `pllimit = 500` slice of the API, and a request of 600 is capped. -/
theorem get_links_pllimit_witness :
    get_links capApi 1 "Page" none = get_links capApi' 1 "Page" none ∧
    pllimitOf (some 600) = 500 := by
  have hagree : ∀ p : LinksParams, p.pllimit = pllimitOf none → capApi p = capApi' p := by
    intro p hp
    have h5 : p.pllimit = 500 := hp
    simp [capApi, capApi', h5]
  exact ⟨get_links_pllimit.2.2.2.2 capApi capApi' 1 "Page" none hagree,
         get_links_pllimit.2.1 600 (by decide)⟩

/-- A page with a single namespace-0 link and no continuation. -/
def cexApi : LinksApi := fun _ =>
  { page := { links := some [{ ns := 0, title := "A" }] }, plcontinue := none }

/-- **C5, counterexample.**  With requested count `num_links = 0` the claim
"never returns more than `n` link titles" fails: the early-return test
`len(pl) == 0` is checked only after an append, so it never fires and the
call returns one title, exceeding the requested count of zero. -/
theorem get_links_limit_counterexample :
    get_links cexApi 1 "Q" (some 0) = some ["A"] ∧
      ¬((["A"] : List String).length ≤ 0) := by decide

/-- **C5 (amended: requested count `n ≥ 1`).**  `get_links` never returns
more than `n` titles, and returns exactly `n` whenever the responses along
the continuation chain supply at least `n` namespace-0 links within the
fuel, short-circuiting as soon as the accumulator reaches `n`. -/
theorem get_links_count (api : LinksApi) (fuel : Nat) (page_name : String) (n : Nat)
    (hn : 1 ≤ n) :
    (∀ l, get_links api fuel page_name (some n) = some l → l.length ≤ n) ∧
    (n ≤ suppliedNS0 api (normalizeTitle page_name) (pllimitOf (some n)) fuel none →
      ∃ l, get_links api fuel page_name (some n) = some l ∧ l.length = n) := by
  constructor
  · intro l h
    exact linksLoop_le api (normalizeTitle page_name) n (pllimitOf (some n)) fuel [] none l hn h
  · intro hsup
    exact linksLoop_exact api (normalizeTitle page_name) n (pllimitOf (some n)) fuel [] none hn
      (by simpa using hsup)

/-- An API serving two pages of links through one continuation cursor:
`A, Talk:A (ns 2), B` then `C, D`. -/
def pagApi : LinksApi := fun p =>
  if p.plcontinue = none then
    { page := { links := some [{ ns := 0, title := "A" }, { ns := 2, title := "Talk:A" },
                               { ns := 0, title := "B" }] },
      plcontinue := some "cont1" }
  else
    { page := { links := some [{ ns := 0, title := "C" }, { ns := 0, title := "D" }] },
      plcontinue := none }

/-- Witness for `get_links_count`: requesting 3 links from a page whose
first fetch yields only 2 namespace-0 links paginates once and returns
exactly 3. -/
theorem get_links_count_witness :
    (["A", "B", "C"] : List String).length ≤ 3 ∧
    (∃ l, get_links pagApi 2 "Some Page" (some 3) = some l ∧ l.length = 3) :=
  ⟨(get_links_count pagApi 2 "Some Page" 3 (by decide)).1 ["A", "B", "C"] (by decide),
   (get_links_count pagApi 2 "Some Page" 3 (by decide)).2 (by decide)⟩

/-- **C7.** Every title `get_links` returns is the title of a link with
namespace id 0 in some response, and links with a nonzero namespace are
silently excluded: deleting them from every response does not change the
result. -/
theorem get_links_ns0_only :
    (∀ (api : LinksApi) (fuel : Nat) (page_name : String) (num_links : Option Nat) l,
      get_links api fuel page_name num_links = some l →
      ∀ x ∈ l, ∃ p lks lk, (api p).page.links = some lks ∧ lk ∈ lks ∧ lk.ns = 0 ∧
        lk.title = x) ∧
    (∀ (api : LinksApi) (fuel : Nat) (page_name : String) (num_links : Option Nat),
      get_links (fun p => eraseNonNS0 (api p)) fuel page_name num_links =
        get_links api fuel page_name num_links) := by
  constructor
  · intro api fuel pn nl l h x hx
    rcases linksLoop_mem api (normalizeTitle pn) nl (pllimitOf nl) fuel [] none l h x hx
      with hx' | hx'
    · exact absurd hx' (List.not_mem_nil x)
    · exact hx'
  · intro api fuel pn nl
    exact linksLoop_erase api (normalizeTitle pn) nl (pllimitOf nl) fuel [] none

/-- Witness for `get_links_ns0_only`: the returned title "D" traces back to
a namespace-0 link of the second response page. -/
theorem get_links_ns0_only_witness :
    ∃ p lks lk, (pagApi p).page.links = some lks ∧ lk ∈ lks ∧ lk.ns = 0 ∧ lk.title = "D" :=
  get_links_ns0_only.1 pagApi 2 "Some Page" none ["A", "B", "C", "D"] (by decide) "D" (by decide)

/-- **C8.** When the popped page entry has no `links` field, `get_links`
returns the accumulator built so far without raising — the empty sequence
when this happens on the very first request — and the loop terminates. -/
theorem get_links_missing_links (api : LinksApi) (fuel : Nat) (page_name : String)
    (num_links : Option Nat) :
    ((api ⟨normalizeTitle page_name, pllimitOf num_links, none⟩).page.links = none →
      get_links api (fuel + 1) page_name num_links = some []) ∧
    (∀ titles pllimit pl cur, (api ⟨titles, pllimit, cur⟩).page.links = none →
      linksLoop api titles num_links pllimit (fuel + 1) pl cur = some pl) := by
  have h2 : ∀ titles pllimit pl cur, (api ⟨titles, pllimit, cur⟩).page.links = none →
      linksLoop api titles num_links pllimit (fuel + 1) pl cur = some pl := by
    intro titles pllimit pl cur h
    rw [linksLoop_succ]
    simp only [h]
  exact ⟨fun h => h2 _ _ [] none h, h2⟩

/-- An API whose page entry never carries a `links` field. -/
def noLinksApi : LinksApi := fun _ => { page := { links := none }, plcontinue := none }

/-- Witness for `get_links_missing_links`: the first response has no
`links` field and the call returns the empty sequence. -/
theorem get_links_missing_links_witness :
    get_links noLinksApi (0 + 1) "Empty Page" none = some [] :=
  (get_links_missing_links noLinksApi 0 "Empty Page" none).1 (by decide)

/-- A single-page API with two namespace-0 links and one talk-namespace
link. -/
def zeroApi : LinksApi := fun _ =>
  { page := { links := some [{ ns := 0, title := "A" }, { ns := 4, title := "X" },
                             { ns := 0, title := "B" }] },
    plcontinue := none }

/-- **C10.** With `num_links = 0` the early-return test `len(pl) == 0` is
evaluated only after an append, so it never holds: the scan never
short-circuits and appends every namespace-0 title, the request carries
`pllimit = 0`, and a page with two namespace-0 links yields two titles —
more than the requested count of zero. -/
theorem get_links_zero_request :
    (∀ links pl, scanLinks (some 0) links pl = Sum.inr (pl ++ ns0Titles links)) ∧
    pllimitOf (some 0) = 0 ∧
    get_links zeroApi 1 "P Q" (some 0) = some ["A", "B"] :=
  ⟨scanLinks_no_early (some 0) (Or.inr rfl), by decide, by decide⟩
